import Mathlib

/-!
Shallow embedding of `DataAnalylis.py` (class `TreasuryRateClassifier`) from the
TesouroDireto repository, together with proofs about its pipeline: time-series
preparation, normalization, K-means clustering, cluster labeling, and the
current-cycle query.

Modelling conventions:
* a pandas `DataFrame` of raw rows is a `List RawRow`; only the three columns
  the code touches (`Tipo Titulo`, `Data Base`, `Taxa Compra Manha`) appear;
* dates are abstract day numbers (`ℕ`); `pd.to_datetime` is modelled as parsing
  a `dd/mm/yyyy` string into a Gregorian-style day count;
* `float64` rate arithmetic is modelled with exact rationals (`ℚ`); the
  normalization, which divides by a square root, is modelled over `ℝ`;
* `Series.sort_values` is modelled as a stable insertion sort, which is exact:
  it only ever runs on the cluster-means series (one entry per cluster), and
  numpy's default argsort is a stable insertion sort on arrays of at most 16
  elements (`SMALL_QUICKSORT = 15`).  `Series.sort_index` is given two models:
  `sortIndex`, the same stable sort, exact in that insertion regime and on
  already-sorted indexes (pandas skips the sort for a monotonic index); and
  `sortIndexNp`, a transcription of the full pandas/numpy path — the monotonic
  shortcut plus numpy's introsort (median-of-3 pivot, Hoare-style scans,
  insertion sort below 17 elements, depth-limited heapsort fallback) — which
  is faithful at every length and decides what happens to duplicate dates on
  longer unsorted inputs, where the quicksort is not stable;
* Python exceptions are modelled by `Except PyError`; the label column, which
  can hold `NaN` after a failed dictionary lookup, is an `Option String`;
* the mutable `self.…` attributes of the class are modelled by explicit state
  passing on `CState`: each method consumes a state and returns a new one.
-/

deriving instance DecidableEq for Except

namespace TesouroDireto

/-- One cell of the `Data Base` column: either a raw date string (as read from
CSV) or a parsed datetime, represented as a day number. -/
inductive PyDate : Type where
  | s (v : String) : PyDate
  | d (day : ℕ) : PyDate
deriving DecidableEq

/-- One row of the raw table, with the three columns the classifier reads. -/
structure RawRow where
  tipoTitulo : String
  dataBase : PyDate
  taxa : ℚ
deriving DecidableEq

/-- The raw pandas DataFrame handed to the classifier. -/
abbrev DataFrame := List RawRow

/-- Kinds of Python exceptions relevant to the claims.  `indexError`,
`attributeError` and `valueError` are raised by the code (through pandas,
plain attribute access, and sklearn respectively); the `emptyDatasetError` and
`degenerateSeriesError` kinds exist so that statements can distinguish the
dedicated errors the design documentation postulates from what is raised. -/
inductive PyError : Type where
  | indexError : PyError
  | keyError : PyError
  | attributeError : PyError
  | valueError : PyError
  | emptyDatasetError : PyError
  | degenerateSeriesError : PyError
deriving DecidableEq

/-- Cumulative day count of the months preceding month `m` in a non-leap year. -/
def daysBeforeMonth (m : ℕ) : ℕ :=
  [0, 31, 59, 90, 120, 151, 181, 212, 243, 273, 304, 334].getD (m - 1) 0

/-- Gregorian leap-year test. -/
def isLeap (y : ℕ) : Bool :=
  y % 4 == 0 && (y % 100 != 0 || y % 400 == 0)

/-- Day count of a civil date, used as the abstract timestamp value: 365 days
per year plus one leap day per leap year strictly before `yyyy`, plus the days
of the year itself (the current year's Feb 29 is counted by the `isLeap`
branch only once the date is past February). -/
def daysFromCivil (dd mm yyyy : ℕ) : ℕ :=
  yyyy * 365 + (yyyy - 1) / 4 - (yyyy - 1) / 100 + (yyyy - 1) / 400 + daysBeforeMonth mm +
    (if isLeap yyyy && decide (2 < mm) then 1 else 0) + dd

/-- Parse a `dd/mm/yyyy` date string into a day number (model of the date
parsing done by `pd.to_datetime` on this dataset's `Data Base` column). -/
def parseDate (str : String) : ℕ :=
  match str.splitOn "/" with
  | [dd, mm, yyyy] => daysFromCivil (dd.toNat?.getD 0) (mm.toNat?.getD 0) (yyyy.toNat?.getD 0)
  | _ => 0

/-- Model of `pd.to_datetime` on one cell: a string is parsed, an already
parsed datetime is left alone. -/
def toDatetime : PyDate → PyDate
  | .s v => .d (parseDate v)
  | .d n => .d n

/-- The day number of a cell (every cell is in parsed form by the time this is
used, since `to_datetime` runs first). -/
def dayOf : PyDate → ℕ
  | .s v => parseDate v
  | .d n => n

/-- Model of `self.df['Data Base'] = pd.to_datetime(self.df['Data Base'])`:
the date column of the whole table is overwritten with parsed dates. -/
def toDatetimeCol (df : DataFrame) : DataFrame :=
  df.map fun r => { r with dataBase := toDatetime r.dataBase }

/-- Model of `self.df[self.df['Tipo Titulo'] == 'Tesouro IPCA+']`. -/
def filterIPCA (df : DataFrame) : DataFrame :=
  df.filter fun r => r.tipoTitulo == "Tesouro IPCA+"

/-- Model of `.set_index('Data Base')['Taxa Compra Manha']`: the table becomes
a series of (day, rate) pairs, in file order. -/
def indexTaxa (df : DataFrame) : List (ℕ × ℚ) :=
  df.map fun r => (dayOf r.dataBase, r.taxa)

/-- Model of `Series.sort_index()` as a stable sort by day.  Exact whenever
the index is already nondecreasing (pandas then skips the sort) or the series
has at most 16 rows (numpy's insertion-sort regime); on longer unsorted
inputs numpy's quicksort is not stable and the length-faithful `sortIndexNp`
below is the authority on which duplicate ends up last. -/
def sortIndex (l : List (ℕ × ℚ)) : List (ℕ × ℚ) :=
  l.insertionSort fun a b => a.1 ≤ b.1

/-- Model of `ts[~ts.index.duplicated(keep='last')]`: keep, for every day, only
the last entry carrying that day, preserving the order of the kept entries. -/
def dedupKeepLast : List (ℕ × ℚ) → List (ℕ × ℚ)
  | [] => []
  | x :: xs =>
      if xs.any fun y => y.1 == x.1 then dedupKeepLast xs
      else x :: dedupKeepLast xs

/-- The forward-filled value at `day`: the rate of the last entry whose day is
at most `day` (the entries are sorted and day-distinct when this is used). -/
def lastLE (l : List (ℕ × ℚ)) (day : ℕ) : Option ℚ :=
  ((l.filter fun p => decide (p.1 ≤ day)).getLast?).map (·.2)

/-- Model of `ts.asfreq('D').ffill()`: reindex to every calendar day between
the first and last day of the series, carrying the last known value forward. -/
def asfreqFfill : List (ℕ × ℚ) → List (ℕ × ℚ)
  | [] => []
  | (d0, v0) :: rest =>
      let dN := (((d0, v0) :: rest).getLastD (d0, v0)).1
      (List.range' d0 (dN + 1 - d0)).map fun day =>
        (day, ((lastLE ((d0, v0) :: rest) day).getD 0))

/-- Model of `TreasuryRateClassifier._prepare_time_series` (lines 37–51): parse
the date column in place, filter to `'Tesouro IPCA+'`, index by day, sort,
deduplicate keeping the last entry per day, and resample daily with forward
fill.  The first component of the result is the table as left behind by the
in-place date-column assignment; the second is the prepared series. -/
def prepare_time_series (df : DataFrame) : DataFrame × List (ℕ × ℚ) :=
  let df' := toDatetimeCol df
  let ts1 := dedupKeepLast (sortIndex (indexTaxa (filterIPCA df')))
  (df', asfreqFfill ts1)

/-- The day column of the filtered raw rows (before dedup): the days that
carry a raw observation. -/
def rawDays (df : DataFrame) : List ℕ :=
  (indexTaxa (filterIPCA (toDatetimeCol df))).map (·.1)

/-- The prepared daily series of a table. -/
def prepared (df : DataFrame) : List (ℕ × ℚ) :=
  (prepare_time_series df).2

/-- The sorted, deduplicated series a table prepares, before daily resampling. -/
def dedupedOf (df : DataFrame) : List (ℕ × ℚ) :=
  dedupKeepLast (sortIndex (indexTaxa (filterIPCA (toDatetimeCol df))))

/-- First day of the daily series of a table. -/
def startDay (df : DataFrame) : ℕ :=
  ((dedupedOf df).headD (0, 0)).1

/-- Last day of the daily series of a table. -/
def endDay (df : DataFrame) : ℕ :=
  ((dedupedOf df).getLastD (0, 0)).1

/-- Value lookup in a (day, rate) series, model of `series[day]`. -/
def lookupTS (ts : List (ℕ × ℚ)) (day : ℕ) : Option ℚ :=
  (ts.find? fun p => p.1 == day).map (·.2)

/-- Arithmetic mean, model of numpy's `mean` on a float column. -/
def popMean (xs : List ℚ) : ℚ :=
  xs.sum / xs.length

/-- Population variance (ddof = 0), as computed by sklearn's `StandardScaler`. -/
def popVar (xs : List ℚ) : ℚ :=
  ((xs.map fun v => (v - popMean xs) ^ 2).sum) / xs.length

/-- The divisor `StandardScaler` actually uses: the standard deviation, with an
exactly-zero deviation replaced by `1` (sklearn's `_handle_zeros_in_scale`). -/
noncomputable def stdScale (xs : List ℚ) : ℝ :=
  if Real.sqrt ((popVar xs : ℚ) : ℝ) = 0 then 1 else Real.sqrt ((popVar xs : ℚ) : ℝ)

/-- Model of `TreasuryRateClassifier.normalize_data` (lines 53–63):
`StandardScaler().fit_transform(self.ts.values.reshape(-1, 1))`.  On an empty
series sklearn raises a `ValueError` ("0 sample(s)"); otherwise it returns
`(value - mean) / scale` for every value, in series order, where `scale` is
`stdScale`.  No error of any kind is raised for a constant series. -/
noncomputable def normalize_data (ts : List (ℕ × ℚ)) : Except PyError (List ℝ) :=
  let xs := ts.map (·.2)
  if xs.isEmpty then .error .valueError
  else .ok (xs.map fun v => (((v : ℚ) : ℝ) - ((popMean xs : ℚ) : ℝ)) / stdScale xs)

/-- Index of the centroid nearest to `x`, ties resolved to the first (lowest)
index, accumulator-style. -/
noncomputable def nearestAux (x : ℝ) : List ℝ → ℕ → ℝ → ℕ → ℕ
  | [], _, _, besti => besti
  | c :: cs, i, bestd, besti =>
      if (x - c) ^ 2 < bestd then nearestAux x cs (i + 1) ((x - c) ^ 2) i
      else nearestAux x cs (i + 1) bestd besti

/-- Index of the centroid of `cs` nearest to `x` (0 on an empty list). -/
noncomputable def nearestCentroid (cs : List ℝ) (x : ℝ) : ℕ :=
  match cs with
  | [] => 0
  | c :: cs' => nearestAux x cs' 1 ((x - c) ^ 2) 0

/-- Mean of the points assigned to centroid `j`; an empty group keeps the old
centroid. -/
noncomputable def centroidMean (xs : List ℝ) (assign : List ℕ) (j : ℕ) (old : ℝ) : ℝ :=
  let grp := ((xs.zip assign).filter fun p => p.2 == j).map (·.1)
  if grp.isEmpty then old else grp.sum / grp.length

/-- Lloyd iteration with an explicit iteration budget (sklearn's `max_iter`). -/
noncomputable def lloydIter (xs : List ℝ) (k : ℕ) : ℕ → List ℝ → List ℝ
  | 0, cs => cs
  | n + 1, cs =>
      let assign := xs.map (nearestCentroid cs)
      lloydIter xs k n ((List.range k).map fun j => centroidMean xs assign j (cs.getD j 0))

/-- Seed-determined initial centroids: the seed and the cluster index pick
positions in the data deterministically. -/
noncomputable def initCentroids (xs : List ℝ) (k seed : ℕ) : List ℝ :=
  (List.range k).map fun j => xs.getD ((seed + j * 2654435761) % max xs.length 1) 0

/-- Model of `KMeans(n_clusters=k, random_state=seed).fit_predict(xs)`: a
deterministic function of the data, the cluster count and the seed (Lloyd's
iterative refinement from seed-determined initial centroids, capped at
sklearn's default budget of 300 iterations). -/
noncomputable def kmeans_fit_predict (xs : List ℝ) (k seed : ℕ) : List ℕ :=
  let cs := lloydIter xs k 300 (initCentroids xs k seed)
  xs.map (nearestCentroid cs)

/-- One labelled row of `self.ts_clusters`: date, rate, cluster id, and the
label column (`none` models the `NaN` a failed dict lookup produces). -/
structure LRow where
  day : ℕ
  taxa : ℚ
  cluster : ℕ
  label : Option String
deriving DecidableEq

/-- The three cluster names hard-coded at line 85 of the source.  The middle
one is the mojibake form the interpreter actually sees, since the source file
stores a double-encoded `é`. -/
def vocab : List String := ["Baixa", "MÃ©dia", "Alta"]

/-- Largest cluster id occurring in the joined rows. -/
def maxClusterId (rows : List ((ℕ × ℚ) × ℕ)) : ℕ :=
  (rows.map (·.2)).foldr max 0

/-- The distinct cluster ids, ascending — the group keys of
`groupby('Cluster')`, which pandas sorts. -/
def clusterIds (rows : List ((ℕ × ℚ) × ℕ)) : List ℕ :=
  (List.range (maxClusterId rows + 1)).filter fun c => (rows.map (·.2)).contains c

/-- Mean rate of the rows assigned to cluster `c`. -/
def meanOf (rows : List ((ℕ × ℚ) × ℕ)) (c : ℕ) : ℚ :=
  let g := (rows.filter fun p => p.2 == c).map (·.1.2)
  g.sum / g.length

/-- Model of `groupby('Cluster')['Taxa Compra Manha'].mean()`: one (cluster id,
mean rate) pair per distinct cluster id, keyed ascending. -/
def clusterMeans (rows : List ((ℕ × ℚ) × ℕ)) : List (ℕ × ℚ) :=
  (clusterIds rows).map fun c => (c, meanOf rows c)

/-- Model of `Series.sort_values()`: stable sort by the rate value. -/
def sortValues (l : List (ℕ × ℚ)) : List (ℕ × ℚ) :=
  l.insertionSort fun a b => a.2 ≤ b.2

/-- Model of `TreasuryRateClassifier.label_clusters` (lines 78–87): join the
cluster column onto the series, compute per-cluster mean rates, sort them
ascending, build the dict sending the three lowest-mean cluster ids to the
three hard-coded names, and map it over the cluster column.  Accessing
`cluster_means.index[2]` with fewer than three clusters raises an
`IndexError`; a cluster id missing from the dict maps to `NaN` (`none`). -/
def label_clusters (ts : List (ℕ × ℚ)) (clusters : List ℕ) :
    Except PyError (List LRow × List (ℕ × String)) :=
  let rows := ts.zip clusters
  match sortValues (clusterMeans rows) with
  | m0 :: m1 :: m2 :: _ =>
      let labels := [(m0.1, "Baixa"), (m1.1, "MÃ©dia"), (m2.1, "Alta")]
      .ok (rows.map fun r => ⟨r.1.1, r.1.2, r.2, labels.lookup r.2⟩, labels)
  | _ => .error .indexError

/-- Model of `TreasuryRateClassifier.classify_current_cycle` (lines 89–99):
`self.ts_clusters['Label'].iloc[-1]` — the label of the last row, or an
`IndexError` on an empty frame (`iloc[-1]` out of bounds). -/
def classify_current_cycle (tsClusters : List LRow) : Except PyError (Option String) :=
  match tsClusters.getLast? with
  | some r => .ok r.label
  | none => .error .indexError

/-- The mutable attributes of a `TreasuryRateClassifier` instance. -/
structure CState where
  df : DataFrame
  ts : List (ℕ × ℚ)
  clusters : Option (List ℕ)
  labels : Option (List (ℕ × String))
  tsClusters : Option (List LRow)
deriving DecidableEq

/-- Model of `TreasuryRateClassifier.__init__` (lines 23–35): store the table,
prepare the series (mutating the stored table's date column in place — in
Python `self.df` aliases the caller's frame), and set `clusters` and `labels`
to `None`.  No `ts_clusters` attribute exists yet. -/
def initClassifier (df : DataFrame) : CState :=
  let p := prepare_time_series df
  ⟨p.1, p.2, none, none, none⟩

/-- Model of `TreasuryRateClassifier.apply_clustering` (lines 65–76): normalize
the stored series and fit K-means with the hard-coded `random_state=42`,
storing the per-row cluster ids.  sklearn raises a `ValueError` when there are
fewer samples than clusters. -/
noncomputable def apply_clustering (st : CState) (k : ℕ) : Except PyError CState :=
  match normalize_data st.ts with
  | .error e => .error e
  | .ok xs =>
      if xs.length < k then .error .valueError
      else .ok { st with clusters := some (kmeans_fit_predict xs k 42) }

/-- Model of calling `label_clusters` on the instance: with `self.clusters`
still `None`, the groupby on an all-`None` column drops every row, so
`cluster_means.index[0]` raises an `IndexError`; otherwise the pure labelling
runs and its results are stored. -/
def label_clusters_step (st : CState) : Except PyError CState :=
  match st.clusters with
  | none => .error .indexError
  | some cl =>
      match label_clusters st.ts cl with
      | .ok (rows, labs) => .ok { st with labels := some labs, tsClusters := some rows }
      | .error e => .error e

/-- Model of calling `classify_current_cycle` on the instance: reading
`self.ts_clusters` before `label_clusters` has created it raises an
`AttributeError`. -/
def classify_step (st : CState) : Except PyError (Option String) :=
  match st.tsClusters with
  | none => .error .attributeError
  | some rows => classify_current_cycle rows

/-- The methods of the class that can run between construction and the
current-cycle query. -/
inductive Method : Type where
  | applyClusteringM (k : ℕ) : Method
  | normalizeM : Method
  | labelClustersM : Method
deriving DecidableEq

/-- Run one method against the instance state. -/
noncomputable def runMethod (st : CState) : Method → Except PyError CState
  | .applyClusteringM k => apply_clustering st k
  | .normalizeM => (normalize_data st.ts).map fun _ => st
  | .labelClustersM => label_clusters_step st

/-- Run a sequence of method calls, stopping at the first raised exception. -/
noncomputable def runMethods : CState → List Method → Except PyError CState
  | st, [] => .ok st
  | st, m :: ms =>
      match runMethod st m with
      | .ok st' => runMethods st' ms
      | .error e => .error e

/-- The full pipeline of §4.1–§4.4 as the source runs it: construct the
classifier on the table, call `apply_clustering(k)` (seed fixed at 42 inside),
call `label_clusters`, and read off the joined labelled table. -/
noncomputable def run_pipeline (df : DataFrame) (k : ℕ) :
    Except PyError (Option (List LRow)) :=
  match apply_clustering (initClassifier df) k with
  | .error e => .error e
  | .ok st =>
      match label_clusters_step st with
      | .error e => .error e
      | .ok st' => .ok st'.tsClusters

/-- Rank of a label name in the ordered vocabulary (its position in `vocab`);
unknown names rank past the end. -/
def labelRank : String → ℕ
  | "Baixa" => 0
  | "MÃ©dia" => 1
  | "Alta" => 2
  | _ => 3

/-- Strict lexicographic order on (cluster id, mean) pairs: by mean first,
ties broken by cluster id.  A stable value sort of an id-sorted list is
sorted in exactly this order. -/
def lexLt (a b : ℕ × ℚ) : Prop :=
  a.2 < b.2 ∨ (a.2 = b.2 ∧ a.1 < b.1)

/-- The rate of the last filtered raw row (in file order) carrying day `d`. -/
def lastRateAt (df : DataFrame) (d : ℕ) : Option ℚ :=
  (((indexTaxa (filterIPCA (toDatetimeCol df))).filter fun p => p.1 == d).getLast?).map (·.2)

/-!
Length-faithful model of the `sort_index` path: pandas `Series.sort_index`
skips the sort when the index is already nondecreasing, and otherwise takes
the permutation from `nargsort`, i.e. `np.argsort(kind='quicksort')` — numpy's
introsort for the argsort case (`aquicksort` in `npysort/quicksort.c.src`).
The functions below transcribe that algorithm: `t` is the `tosort` index
array, `v` the key array; partitions longer than `SMALL_QUICKSORT = 15` are
split around a median-of-three pivot parked at `pr - 1`, with Hoare-style
strict-compare scans, the larger side pushed on an explicit stack; short runs
are finished by an index-moving insertion sort, and a partition that exceeds
the depth limit `2·⌊log₂ n⌋` falls back to the 1-based sift-down heapsort
`aheapsort`.  Loops are written with a fuel parameter whose initial value
strictly dominates the algorithm's true iteration count, so the fuel never
runs out.
-/

/-- Key of element `e` (the day number it carries). -/
def npKey (v : List ℕ) (e : ℕ) : ℕ := v.getD e 0

/-- Entry of the index array at position `p`. -/
def npGet (t : List ℕ) (p : ℕ) : ℕ := t.getD p 0

/-- Swap two positions of the index array (`INTP_SWAP`). -/
def npSwap (t : List ℕ) (p q : ℕ) : List ℕ := (t.set p (npGet t q)).set q (npGet t p)

/-- The `do ++pi; while (LT(v[*pi], vp))` scan: first position after `pi`
whose key is not below the pivot. -/
def npScanUp (v t : List ℕ) (vp : ℕ) : ℕ → ℕ → ℕ
  | 0, pi => pi + 1
  | fuel + 1, pi =>
      if npKey v (npGet t (pi + 1)) < vp then npScanUp v t vp fuel (pi + 1) else pi + 1

/-- The `do --pj; while (LT(vp, v[*pj]))` scan: first position before `pj`
whose key is not above the pivot. -/
def npScanDown (v t : List ℕ) (vp : ℕ) : ℕ → ℕ → ℕ
  | 0, pj => pj - 1
  | fuel + 1, pj =>
      if vp < npKey v (npGet t (pj - 1)) then npScanDown v t vp fuel (pj - 1) else pj - 1

/-- Hoare partition loop: scan from both ends, swap out-of-place pairs, and
return the crossing point `pi` together with the permuted index array. -/
def npPartLoop (v : List ℕ) (vp : ℕ) : ℕ → List ℕ → ℕ → ℕ → List ℕ × ℕ
  | 0, t, pi, _ => (t, pi)
  | fuel + 1, t, pi, pj =>
      let pi' := npScanUp v t vp (t.length + 1) pi
      let pj' := npScanDown v t vp (t.length + 1) pj
      if pj' ≤ pi' then (t, pi')
      else npPartLoop v vp fuel (npSwap t pi' pj') pi' pj'

/-- Inner shift loop of the argsort insertion sort: move `vi` left past
strictly greater keys, never past an equal one (which makes it stable). -/
def npInsInner (v : List ℕ) (pl vi vp : ℕ) : ℕ → List ℕ → ℕ → List ℕ
  | 0, t, pj => t.set pj vi
  | fuel + 1, t, pj =>
      if pl < pj ∧ vp < npKey v (npGet t (pj - 1)) then
        npInsInner v pl vi vp fuel (t.set pj (npGet t (pj - 1))) (pj - 1)
      else t.set pj vi

/-- Insertion sort of the index-array run `[pl..pr]`, as numpy runs it on
partitions of at most 16 elements. -/
def npInsSort (v : List ℕ) (pl pr : ℕ) : ℕ → List ℕ → ℕ → List ℕ
  | 0, t, _ => t
  | fuel + 1, t, pi =>
      if pi ≤ pr then
        let vi := npGet t pi
        npInsSort v pl pr fuel (npInsInner v pl vi (npKey v vi) (pi + 1) t pi) (pi + 1)
      else t

/-- Sift-down of `aheapsort` on the 1-based view `a[k] = t[pl + k - 1]`. -/
def npHeapSift (v : List ℕ) (pl tmp n : ℕ) : ℕ → List ℕ → ℕ → ℕ → List ℕ
  | 0, t, i, _ => t.set (pl + i - 1) tmp
  | fuel + 1, t, i, j =>
      if j ≤ n then
        let j' :=
          if j < n ∧ npKey v (npGet t (pl + j - 1)) < npKey v (npGet t (pl + j)) then j + 1
          else j
        if npKey v tmp < npKey v (npGet t (pl + j' - 1)) then
          npHeapSift v pl tmp n fuel (t.set (pl + i - 1) (npGet t (pl + j' - 1))) j' (2 * j')
        else t.set (pl + i - 1) tmp
      else t.set (pl + i - 1) tmp

/-- Heap construction phase of `aheapsort` (`l` from `n/2` down to 1). -/
def npHeapBuild (v : List ℕ) (pl n : ℕ) : ℕ → List ℕ → ℕ → List ℕ
  | 0, t, _ => t
  | fuel + 1, t, l =>
      if 1 ≤ l then
        npHeapBuild v pl n fuel (npHeapSift v pl (npGet t (pl + l - 1)) n (n + 2) t l (2 * l)) (l - 1)
      else t

/-- Extraction phase of `aheapsort` (`n` down to 2). -/
def npHeapExtract (v : List ℕ) (pl : ℕ) : ℕ → List ℕ → ℕ → List ℕ
  | 0, t, _ => t
  | fuel + 1, t, n =>
      if 1 < n then
        let tmp := npGet t (pl + n - 1)
        let t1 := t.set (pl + n - 1) (npGet t pl)
        npHeapExtract v pl fuel (npHeapSift v pl tmp (n - 1) (n + 2) t1 1 2) (n - 1)
      else t

/-- `aheapsort` on the index-array run `[pl..pr]` (depth-limit fallback). -/
def npHeapSortRange (v t : List ℕ) (pl pr : ℕ) : List ℕ :=
  let n := pr + 1 - pl
  npHeapExtract v pl (n + 2) (npHeapBuild v pl n (n + 2) t (n / 2)) n

/-- Main `aquicksort` loop: quicksort partitioning while the run exceeds
`SMALL_QUICKSORT = 15` entries (heapsort past the depth limit), insertion
sort on the remainder, continuing with runs popped from the explicit stack. -/
def npIntroLoop (v : List ℕ) : ℕ → List ℕ → ℕ → ℕ → Int → List (ℕ × ℕ) → List ℕ
  | 0, t, _, _, _, _ => t
  | fuel + 1, t, pl, pr, depth, stack =>
      if 15 < pr - pl then
        if depth < 0 then
          let t' := npHeapSortRange v t pl pr
          match stack with
          | [] => t'
          | (pl', pr') :: stack' => npIntroLoop v fuel t' pl' pr' (depth - 1) stack'
        else
          let pm := pl + (pr - pl) / 2
          let t1 := if npKey v (npGet t pm) < npKey v (npGet t pl) then npSwap t pm pl else t
          let t2 := if npKey v (npGet t1 pr) < npKey v (npGet t1 pm) then npSwap t1 pr pm else t1
          let t3 := if npKey v (npGet t2 pm) < npKey v (npGet t2 pl) then npSwap t2 pm pl else t2
          let vp := npKey v (npGet t3 pm)
          let t4 := npSwap t3 pm (pr - 1)
          let res := npPartLoop v vp (pr + 2) t4 pl (pr - 1)
          let t6 := npSwap res.1 res.2 (pr - 1)
          if res.2 - pl < pr - res.2 then
            npIntroLoop v fuel t6 pl (res.2 - 1) (depth - 1) ((res.2 + 1, pr) :: stack)
          else
            npIntroLoop v fuel t6 (res.2 + 1) pr (depth - 1) ((pl, res.2 - 1) :: stack)
      else
        let t' := npInsSort v pl pr (pr + 2 - pl) t (pl + 1)
        match stack with
        | [] => t'
        | (pl', pr') :: stack' => npIntroLoop v fuel t' pl' pr' depth stack'

/-- `np.argsort(v, kind='quicksort')`: the permutation `aquicksort` leaves in
the index array, starting from the identity, with numpy's depth limit. -/
def npArgsort (v : List ℕ) : List ℕ :=
  match v.length with
  | 0 => []
  | n => npIntroLoop v (4 * n + 16) (List.range n) 0 (n - 1) (2 * Int.ofNat (Nat.log2 n)) []

/-- The monotonicity test pandas performs before sorting an index. -/
def isMonotonicNonDec : List ℕ → Bool
  | [] => true
  | [_] => true
  | a :: b :: rest => a ≤ b && isMonotonicNonDec (b :: rest)

/-- Length-faithful model of `Series.sort_index()`: keep an already-sorted
series as is (pandas' monotonic shortcut), otherwise reorder by the argsort
permutation. -/
def sortIndexNp (l : List (ℕ × ℚ)) : List (ℕ × ℚ) :=
  if isMonotonicNonDec (l.map (·.1)) then l
  else (npArgsort (l.map (·.1))).map fun i => l.getD i (0, 0)

/-- The prepared daily series under the length-faithful sort model (the
stages around the sort are unchanged). -/
def preparedNp (df : DataFrame) : List (ℕ × ℚ) :=
  asfreqFfill (dedupKeepLast (sortIndexNp (indexTaxa (filterIPCA (toDatetimeCol df)))))

/-- An 18-row table whose date column is not sorted: nine rows on day 12,
then five on day 5, then four on day 9 with rates 91, 92, 93, 94 in file
order.  Eighteen rows put the argsort in its quicksort regime. -/
def c3df : DataFrame :=
  [⟨"Tesouro IPCA+", .d 12, 200⟩, ⟨"Tesouro IPCA+", .d 12, 201⟩, ⟨"Tesouro IPCA+", .d 12, 202⟩,
   ⟨"Tesouro IPCA+", .d 12, 203⟩, ⟨"Tesouro IPCA+", .d 12, 204⟩, ⟨"Tesouro IPCA+", .d 12, 205⟩,
   ⟨"Tesouro IPCA+", .d 12, 206⟩, ⟨"Tesouro IPCA+", .d 12, 207⟩, ⟨"Tesouro IPCA+", .d 12, 208⟩,
   ⟨"Tesouro IPCA+", .d 5, 300⟩, ⟨"Tesouro IPCA+", .d 5, 301⟩, ⟨"Tesouro IPCA+", .d 5, 302⟩,
   ⟨"Tesouro IPCA+", .d 5, 303⟩, ⟨"Tesouro IPCA+", .d 5, 304⟩,
   ⟨"Tesouro IPCA+", .d 9, 91⟩, ⟨"Tesouro IPCA+", .d 9, 92⟩, ⟨"Tesouro IPCA+", .d 9, 93⟩,
   ⟨"Tesouro IPCA+", .d 9, 94⟩]

/-! ### General helper lemmas -/

/-- A list fixed by `map` is fixed pointwise. -/
theorem map_eq_self_mem {α : Type} {g : α → α} :
    ∀ {l : List α}, l.map g = l → ∀ x ∈ l, g x = x := by
  intro l
  induction l with
  | nil => intro _ x hx; cases hx
  | cons a l ih =>
      intro h x hx
      rw [List.map_cons] at h
      injection h with h1 h2
      rcases List.mem_cons.mp hx with rfl | hx
      · exact h1
      · exact ih h2 x hx

/-- In a list whose days are pairwise nondecreasing, every row's day is at most
the last row's day. -/
theorem day_le_getLast_of_pairwise :
    ∀ {l : List LRow} (h : l ≠ []), l.Pairwise (fun a b => a.day ≤ b.day) →
      ∀ r ∈ l, r.day ≤ (l.getLast h).day := by
  intro l
  induction l with
  | nil => intro h; cases h rfl
  | cons a l ih =>
      intro _ hp r hr
      rcases List.pairwise_cons.mp hp with ⟨ha, hl⟩
      cases l with
      | nil =>
          rcases List.mem_cons.mp hr with rfl | hr
          · simp [List.getLast]
          · cases hr
      | cons b l' =>
          rw [List.getLast_cons (by simp)]
          rcases List.mem_cons.mp hr with rfl | hr
          · exact ha _ (List.getLast_mem _)
          · exact ih (by simp) hl r hr

/-- A successful `apply_clustering` call only writes the `clusters` attribute. -/
theorem apply_clustering_frame (st : CState) (k : ℕ) (st' : CState)
    (h : apply_clustering st k = .ok st') :
    st'.df = st.df ∧ st'.ts = st.ts ∧ st'.labels = st.labels ∧
      st'.tsClusters = st.tsClusters := by
  unfold apply_clustering at h
  split at h
  · exact absurd h (by simp)
  · split at h
    · exact absurd h (by simp)
    · cases h; exact ⟨rfl, rfl, rfl, rfl⟩

/-- A successful `label_clusters` call leaves the `clusters` attribute (and the
table and series) untouched. -/
theorem label_clusters_step_frame (st st' : CState)
    (h : label_clusters_step st = .ok st') :
    st'.df = st.df ∧ st'.ts = st.ts ∧ st'.clusters = st.clusters := by
  unfold label_clusters_step at h
  split at h
  · exact absurd h (by simp)
  · split at h
    · cases h; exact ⟨rfl, rfl, rfl⟩
    · exact absurd h (by simp)

/-- Any method sequence avoiding `label_clusters` leaves `ts_clusters` absent:
construction sets it to nothing and only `label_clusters` creates it. -/
theorem runMethods_no_label_tsClusters :
    ∀ (ms : List Method) (st st' : CState), Method.labelClustersM ∉ ms →
      st.tsClusters = none → runMethods st ms = .ok st' → st'.tsClusters = none := by
  intro ms
  induction ms with
  | nil =>
      intro st st' _ hnone hrun
      cases hrun
      exact hnone
  | cons m ms ih =>
      intro st st' hm hnone hrun
      unfold runMethods at hrun
      rcases h1 : runMethod st m with e | st₁ <;> rw [h1] at hrun
      · exact absurd hrun (by simp)
      · refine ih st₁ st' (fun hmem => hm (List.mem_cons_of_mem _ hmem)) ?_ hrun
        cases m with
        | applyClusteringM k =>
            exact (apply_clustering_frame st k st₁ h1).2.2.2.trans hnone
        | normalizeM =>
            unfold runMethod at h1
            rcases hn : normalize_data st.ts with e | xs <;> rw [hn] at h1
            · exact absurd h1 (by simp [Except.map])
            · simp [Except.map] at h1
              rw [← h1]
              exact hnone
        | labelClustersM =>
            exact absurd (List.mem_cons_self _ _) hm

/-- The mean of a constant list is the constant. -/
theorem popMean_const (xs : List ℚ) (c : ℚ) (hne : xs ≠ [])
    (h : ∀ v ∈ xs, v = c) : popMean xs = c := by
  unfold popMean
  rw [List.sum_eq_card_nsmul xs c h, nsmul_eq_mul]
  have hlen : (xs.length : ℚ) ≠ 0 := Nat.cast_ne_zero.mpr (by simpa using hne)
  field_simp

/-- A nonempty list with a value away from its mean has positive variance. -/
theorem popVar_pos (xs : List ℚ) (hne : xs ≠ [])
    (h : ∃ v ∈ xs, v ≠ popMean xs) : 0 < popVar xs := by
  unfold popVar
  rcases h with ⟨v, hv, hvne⟩
  have hlen : (0 : ℚ) < xs.length := by
    exact_mod_cast List.length_pos.mpr hne
  refine div_pos ?_ hlen
  have hnonneg : ∀ x ∈ xs.map fun v => (v - popMean xs) ^ 2, (0 : ℚ) ≤ x := by
    intro x hx
    rcases List.mem_map.mp hx with ⟨w, _, rfl⟩
    positivity
  have hmem : (v - popMean xs) ^ 2 ∈ xs.map fun v => (v - popMean xs) ^ 2 :=
    List.mem_map.mpr ⟨v, hv, rfl⟩
  have hle := List.single_le_sum hnonneg _ hmem
  have hpos : (0 : ℚ) < (v - popMean xs) ^ 2 := by
    have : v - popMean xs ≠ 0 := sub_ne_zero.mpr hvne
    positivity
  linarith

/-! ### Claim theorems -/

/-- C2: for a fixed input table and cluster count, repeated runs of the full
pipeline (preparation, normalization, clustering with the hard-coded seed 42,
label assignment) produce identical labelled series. -/
theorem pipeline_deterministic (df₁ df₂ : DataFrame) (k₁ k₂ : ℕ)
    (hdf : df₁ = df₂) (hk : k₁ = k₂) :
    run_pipeline df₁ k₁ = run_pipeline df₂ k₂ := by
  rw [hdf, hk]

/-- C2 witness: two runs on a concrete one-row table with K = 3 agree. -/
theorem pipeline_deterministic_witness :
    run_pipeline [⟨"Tesouro IPCA+", .d 10, 5⟩] 3 =
      run_pipeline [⟨"Tesouro IPCA+", .d 10, 5⟩] 3 :=
  pipeline_deterministic _ _ 3 3 rfl rfl

/-- C6 counterexample: on a table whose only row does not match the filter,
`_prepare_time_series` returns normally with an empty series — it does not
raise any `EmptyDatasetError` (the code defines no such error). -/
theorem prepare_empty_filter_counterexample :
    prepare_time_series [⟨"Tesouro Prefixado", .d 10, 5⟩] =
      ([⟨"Tesouro Prefixado", .d 10, 5⟩], []) := by
  decide

/-- C6 amended: when zero rows match the instrument filter, preparation does
not fail; it returns the date-parsed table together with an empty daily
series, and the failure only surfaces in later stages. -/
theorem prepare_empty_filter_returns_empty (df : DataFrame)
    (h : ∀ r ∈ df, r.tipoTitulo ≠ "Tesouro IPCA+") :
    prepare_time_series df = (toDatetimeCol df, []) := by
  have hfil : filterIPCA (toDatetimeCol df) = [] := by
    refine List.filter_eq_nil_iff.mpr ?_
    intro r hr
    rcases List.mem_map.mp hr with ⟨r₀, hr₀, rfl⟩
    simpa using h r₀ hr₀
  simp only [prepare_time_series, hfil]
  rfl

/-- C6 witness: a concrete two-row table with no matching row prepares to the
empty series. -/
theorem prepare_empty_filter_returns_empty_witness :
    prepare_time_series
        [⟨"Tesouro Prefixado", .d 10, 5⟩, ⟨"Tesouro Selic", .d 11, 6⟩] =
      (toDatetimeCol [⟨"Tesouro Prefixado", .d 10, 5⟩, ⟨"Tesouro Selic", .d 11, 6⟩], []) :=
  prepare_empty_filter_returns_empty _ (by decide)

/-- C7 counterexample: on an empty labelled table, `classify_current_cycle`
raises the generic out-of-bounds `IndexError` of `iloc[-1]`, which is not the
dedicated `EmptyDatasetError` the claim requires; no defensive emptiness check
exists at the API boundary. -/
theorem classify_empty_counterexample :
    classify_current_cycle [] = .error .indexError ∧
      (Except.error .indexError : Except PyError (Option String)) ≠
        .error .emptyDatasetError := by
  decide

/-- C7 amended: on a non-empty labelled table whose dates are in nondecreasing
order (as the pipeline produces), the query returns the label of the last row,
which carries the chronologically last date; on an empty table it raises an
`IndexError` (not an `EmptyDatasetError`). -/
theorem classify_last_label (l : List LRow) (h : l ≠ [])
    (hs : l.Pairwise fun a b => a.day ≤ b.day) :
    classify_current_cycle l = .ok (l.getLast h).label ∧
      (∀ r ∈ l, r.day ≤ (l.getLast h).day) ∧
      classify_current_cycle ([] : List LRow) = .error .indexError := by
  refine ⟨?_, day_le_getLast_of_pairwise h hs, rfl⟩
  simp [classify_current_cycle, List.getLast?_eq_getLast _ h]

/-- C7 witness: the query on a concrete two-row labelled table returns the
label of its last row. -/
theorem classify_last_label_witness :
    classify_current_cycle
        [⟨10, 5, 0, some "Baixa"⟩, ⟨11, 9, 2, some "Alta"⟩] =
      .ok (([⟨10, 5, 0, some "Baixa"⟩, ⟨11, 9, 2, some "Alta"⟩] :
        List LRow).getLast (by decide)).label :=
  (classify_last_label _ (by decide) (by decide)).1

/-- C9 counterexample: constructing the classifier on a table whose date cell
is still a raw string leaves behind a table whose date column has been
overwritten with parsed datetimes — the supplied raw table is not unchanged. -/
theorem prepare_mutates_counterexample :
    (initClassifier [⟨"Tesouro IPCA+", .s "01/01/2024", 10⟩]).df ≠
      [⟨"Tesouro IPCA+", .s "01/01/2024", 10⟩] := by
  simp [initClassifier, prepare_time_series, toDatetimeCol, toDatetime]

/-- C9 amended: time-series preparation mutates the supplied raw table in
place, overwriting its date column with parsed dates (so any table containing
a string-typed date comes back changed); the other stages construct new state,
and in particular label assignment does not mutate the cluster assignment. -/
theorem prepare_mutation_profile (df : DataFrame)
    (h : ∃ r ∈ df, ∃ v, r.dataBase = PyDate.s v) :
    (initClassifier df).df ≠ df ∧
      ∀ st st', label_clusters_step st = .ok st' → st'.clusters = st.clusters := by
  constructor
  · intro heq
    rcases h with ⟨r, hr, v, hv⟩
    have hdf : (initClassifier df).df = toDatetimeCol df := rfl
    rw [hdf] at heq
    have h2 := map_eq_self_mem heq r hr
    have hdb : toDatetime r.dataBase = r.dataBase := congrArg RawRow.dataBase h2
    rw [hv] at hdb
    exact absurd hdb (by simp [toDatetime])
  · intro st st' hstep
    exact (label_clusters_step_frame st st' hstep).2.2

/-- C9 witness: a concrete two-row table with a string date comes back changed
from construction. -/
theorem prepare_mutation_profile_witness :
    (initClassifier
        [⟨"Tesouro IPCA+", .s "02/01/2024", 11⟩, ⟨"Tesouro IPCA+", .d 5, 12⟩]).df ≠
      [⟨"Tesouro IPCA+", .s "02/01/2024", 11⟩, ⟨"Tesouro IPCA+", .d 5, 12⟩] :=
  (prepare_mutation_profile _ ⟨_, List.mem_cons_self _ _, "02/01/2024", rfl⟩).1

/-- C10: on any classifier instance on which `label_clusters` has never been
called — whatever other methods ran, in any order — the current-cycle query
fails, because construction leaves the joined labelled table absent and only
`label_clusters` creates it. -/
theorem classify_requires_labeling (df : DataFrame) (ms : List Method)
    (hms : Method.labelClustersM ∉ ms) (st' : CState)
    (hrun : runMethods (initClassifier df) ms = .ok st') :
    classify_step st' = .error .attributeError := by
  have hnone : st'.tsClusters = none :=
    runMethods_no_label_tsClusters ms _ st' hms rfl hrun
  unfold classify_step
  rw [hnone]

/-- C10 witness: querying a freshly constructed classifier (no methods called)
fails with an `AttributeError`. -/
theorem classify_requires_labeling_witness :
    Method.labelClustersM ∉ ([] : List Method) ∧
      classify_step (initClassifier [⟨"Tesouro IPCA+", .d 10, 5⟩]) =
        .error .attributeError :=
  ⟨by decide, classify_requires_labeling _ [] (by decide) _ rfl⟩

/-- C5 counterexample: on a constant three-day series, `normalize_data`
returns normally (all zeros, sklearn having replaced the zero deviation by 1)
instead of raising a `DegenerateSeriesError`. -/
theorem normalize_constant_counterexample :
    normalize_data [(10, 5), (11, 5), (12, 5)] = .ok [0, 0, 0] := by
  norm_num [normalize_data, popMean, popVar, stdScale]

/-- C5 amended: normalization never raises on a nonempty series.  A constant
series maps to all zeros (sklearn replaces the zero standard deviation by 1,
and the centred values are already zero); a non-constant series has positive
variance, the scale really is the standard deviation `√variance ≠ 0`, and the
result is `(value − mean) / standard deviation` elementwise, preserving
order. -/
theorem normalize_behavior (ts : List (ℕ × ℚ)) (h : ts ≠ []) :
    (∀ c : ℚ, (∀ p ∈ ts, p.2 = c) → normalize_data ts = .ok (ts.map fun _ => 0)) ∧
    ((∃ p ∈ ts, ∃ q ∈ ts, p.2 ≠ q.2) →
      stdScale (ts.map (·.2)) = Real.sqrt ((popVar (ts.map (·.2)) : ℚ) : ℝ) ∧
      stdScale (ts.map (·.2)) ≠ 0 ∧
      normalize_data ts = .ok ((ts.map (·.2)).map fun v : ℚ =>
        ((v : ℝ) - ((popMean (ts.map (·.2)) : ℚ) : ℝ)) /
          Real.sqrt ((popVar (ts.map (·.2)) : ℚ) : ℝ))) := by
  have hxs : ts.map (·.2) ≠ [] := by simpa using h
  have hempty : (ts.map (·.2)).isEmpty = false := by
    simpa [List.isEmpty_iff] using hxs
  constructor
  · intro c hc
    have hall : ∀ v ∈ ts.map (·.2), v = c := by
      intro v hv
      rcases List.mem_map.mp hv with ⟨p, hp, rfl⟩
      exact hc p hp
    have hmean : popMean (ts.map (·.2)) = c := popMean_const _ c hxs hall
    simp only [normalize_data, hempty, Bool.false_eq_true, if_false]
    congr 1
    rw [List.map_map]
    refine List.map_congr_left ?_
    intro p hp
    simp only [Function.comp]
    rw [hc p hp, hmean, sub_self, zero_div]
  · intro hnc
    have hvar : 0 < popVar (ts.map (·.2)) := by
      apply popVar_pos _ hxs
      rcases hnc with ⟨p, hp, q, hq, hne⟩
      by_cases hpm : p.2 = popMean (ts.map (·.2))
      · refine ⟨q.2, List.mem_map.mpr ⟨q, hq, rfl⟩, fun hh => hne ?_⟩
        rw [hpm, ← hh]
      · exact ⟨p.2, List.mem_map.mpr ⟨p, hp, rfl⟩, hpm⟩
    have hpos : (0 : ℝ) < ((popVar (ts.map (·.2)) : ℚ) : ℝ) := by exact_mod_cast hvar
    have hsqrt : Real.sqrt ((popVar (ts.map (·.2)) : ℚ) : ℝ) ≠ 0 :=
      ne_of_gt (Real.sqrt_pos.mpr hpos)
    have hscale : stdScale (ts.map (·.2)) =
        Real.sqrt ((popVar (ts.map (·.2)) : ℚ) : ℝ) := by
      unfold stdScale
      rw [if_neg hsqrt]
    refine ⟨hscale, hscale ▸ hsqrt, ?_⟩
    simp only [normalize_data, hempty, Bool.false_eq_true, if_false, hscale]

/-- C5 witness: a concrete constant two-day series normalizes to zeros with no
error raised. -/
theorem normalize_behavior_witness :
    normalize_data [(10, (5 : ℚ)), (11, 5)] =
      .ok (([(10, (5 : ℚ)), (11, 5)] : List (ℕ × ℚ)).map fun _ => 0) :=
  (normalize_behavior _ (by decide)).1 5 (by decide)

/-- C8 counterexample: with only two clusters present, label assignment does
not draw two names from a vocabulary sized to K — it unconditionally indexes
three hard-coded names and raises an `IndexError`, so no date gets a label. -/
theorem label_vocab_counterexample :
    label_clusters [(10, 1), (11, 10)] [0, 1] = .error .indexError := by
  norm_num [label_clusters, clusterMeans, clusterIds, maxClusterId, meanOf, sortValues,
    List.insertionSort, List.orderedInsert]


theorem sortIndex_pairwise (l : List (ℕ × ℚ)) :
    (sortIndex l).Pairwise fun a b => a.1 ≤ b.1 := by
  haveI : IsTotal (ℕ × ℚ) fun a b => a.1 ≤ b.1 := ⟨fun a b => Nat.le_total a.1 b.1⟩
  haveI : IsTrans (ℕ × ℚ) fun a b => a.1 ≤ b.1 := ⟨fun a b c h1 h2 => le_trans h1 h2⟩
  exact List.sorted_insertionSort _ l

theorem sortIndex_perm (l : List (ℕ × ℚ)) : List.Perm (sortIndex l) l :=
  List.perm_insertionSort _ l

theorem filter_key_orderedInsert_pos (d : ℕ) (x : ℕ × ℚ) (hx : x.1 = d) :
    ∀ l : List (ℕ × ℚ),
      (List.orderedInsert (fun a b => a.1 ≤ b.1) x l).filter (fun y => y.1 == d) =
        x :: l.filter (fun y => y.1 == d) := by
  have hxT : (x.1 == d) = true := by simp [hx]
  intro l
  induction l with
  | nil => simp [List.orderedInsert, List.filter_cons, hxT]
  | cons b l ih =>
      by_cases hle : x.1 ≤ b.1
      · rw [List.orderedInsert, if_pos hle, List.filter_cons, hxT]
        simp
      · have hbF : (b.1 == d) = false := by
          have hb : b.1 ≠ d := by omega
          simpa using hb
        rw [List.orderedInsert, if_neg hle, List.filter_cons, hbF, List.filter_cons, hbF]
        simpa using ih

theorem filter_key_orderedInsert_neg (d : ℕ) (x : ℕ × ℚ) (hx : x.1 ≠ d) :
    ∀ l : List (ℕ × ℚ),
      (List.orderedInsert (fun a b => a.1 ≤ b.1) x l).filter (fun y => y.1 == d) =
        l.filter (fun y => y.1 == d) := by
  have hxF : (x.1 == d) = false := by simpa using hx
  intro l
  induction l with
  | nil => simp [List.orderedInsert, List.filter_cons, hxF]
  | cons b l ih =>
      by_cases hle : x.1 ≤ b.1
      · rw [List.orderedInsert, if_pos hle, List.filter_cons, hxF]
        simp
      · rw [List.orderedInsert, if_neg hle, List.filter_cons, List.filter_cons]
        cases hbd : b.1 == d <;> simp [ih]

theorem filter_key_sortIndex (d : ℕ) :
    ∀ l : List (ℕ × ℚ),
      (sortIndex l).filter (fun y => y.1 == d) = l.filter (fun y => y.1 == d) := by
  intro l
  induction l with
  | nil => rfl
  | cons x l ih =>
      show (List.orderedInsert _ x (sortIndex l)).filter _ = _
      by_cases hx : x.1 = d
      · rw [filter_key_orderedInsert_pos d x hx, ih, List.filter_cons]
        simp [hx]
      · rw [filter_key_orderedInsert_neg d x hx, ih, List.filter_cons]
        simp [hx]



theorem dedupKeepLast_sublist : ∀ l : List (ℕ × ℚ), List.Sublist (dedupKeepLast l) l := by
  intro l
  induction l with
  | nil => simp [dedupKeepLast]
  | cons x xs ih =>
      rw [dedupKeepLast]
      split
      · exact ih.cons x
      · exact ih.cons₂ x

theorem dedupKeepLast_keys_nodup : ∀ l : List (ℕ × ℚ),
    (dedupKeepLast l).Pairwise fun a b => a.1 ≠ b.1 := by
  intro l
  induction l with
  | nil => exact List.Pairwise.nil
  | cons x xs ih =>
      rw [dedupKeepLast]
      split
      · exact ih
      · rename_i hany
        refine List.pairwise_cons.mpr ⟨?_, ih⟩
        intro y hy hEq
        exact hany (List.any_eq_true.mpr
          ⟨y, (dedupKeepLast_sublist xs).subset hy, by simp [hEq]⟩)

theorem find?_dedupKeepLast (d : ℕ) : ∀ l : List (ℕ × ℚ),
    (dedupKeepLast l).find? (fun p => p.1 == d) = (l.filter fun p => p.1 == d).getLast? := by
  intro l
  induction l with
  | nil => rfl
  | cons x xs ih =>
      rw [dedupKeepLast, List.filter_cons]
      by_cases hx : x.1 = d
      · have hxT : (x.1 == d) = true := by simp [hx]
        rw [hxT, if_pos rfl]
        split
        · rename_i hany
          rw [ih]
          rcases List.any_eq_true.mp hany with ⟨y, hy, hyx⟩
          have hyd : (y.1 == d) = true := by
            have : y.1 = x.1 := by simpa using hyx
            simp [this, hx]
          have hne : xs.filter (fun p => p.1 == d) ≠ [] :=
            List.ne_nil_of_mem (List.mem_filter.mpr ⟨hy, hyd⟩)
          cases hfe : xs.filter (fun p => p.1 == d) with
          | nil => exact absurd hfe hne
          | cons z zs => exact List.getLast?_cons_cons.symm
        · rename_i hany
          have hfil : xs.filter (fun p => p.1 == d) = [] := by
            rw [List.filter_eq_nil_iff]
            intro p hp hpd
            refine hany (List.any_eq_true.mpr ⟨p, hp, ?_⟩)
            have : p.1 = d := by simpa using hpd
            simp [this, hx]
          rw [hfil]
          simp [hxT]
      · have hxF : (x.1 == d) = false := by simpa using hx
        rw [hxF]
        simp only [Bool.false_eq_true, if_false]
        split
        · exact ih
        · rw [List.find?_cons_of_neg _ (by simp [hx]), ih]

theorem key_mem_dedupKeepLast (d : ℕ) : ∀ l : List (ℕ × ℚ),
    d ∈ (dedupKeepLast l).map (·.1) ↔ d ∈ l.map (·.1) := by
  intro l
  induction l with
  | nil => simp [dedupKeepLast]
  | cons x xs ih =>
      rw [dedupKeepLast]
      split
      · rename_i hany
        rw [ih, List.map_cons]
        constructor
        · intro h
          exact List.mem_cons_of_mem _ h
        · intro h
          rcases List.mem_cons.mp h with rfl | h
          · rcases List.any_eq_true.mp hany with ⟨y, hy, hyx⟩
            have : y.1 = x.1 := by simpa using hyx
            exact this ▸ List.mem_map.mpr ⟨y, hy, rfl⟩
          · exact h
      · rw [List.map_cons, List.map_cons, List.mem_cons, List.mem_cons, ih]



theorem dedup_sort_pairwise_lt (l : List (ℕ × ℚ)) :
    (dedupKeepLast (sortIndex l)).Pairwise fun a b => a.1 < b.1 :=
  (((sortIndex_pairwise l).sublist (dedupKeepLast_sublist _)).and
    (dedupKeepLast_keys_nodup _)).imp fun h => lt_of_le_of_ne h.1 h.2

theorem key_le_getLastD : ∀ l : List (ℕ × ℚ), (l.Pairwise fun a b => a.1 ≤ b.1) →
    ∀ x ∈ l, ∀ z : ℕ × ℚ, x.1 ≤ (l.getLastD z).1 := by
  intro l
  induction l with
  | nil => intro _ x hx; cases hx
  | cons a l ih =>
      intro hp x hx z
      rw [List.getLastD_cons]
      rcases List.pairwise_cons.mp hp with ⟨ha, hl⟩
      rcases List.mem_cons.mp hx with heq | hx
      · cases l with
        | nil => simp [List.getLastD, heq]
        | cons b l' => exact le_trans (heq ▸ ha b (by simp)) (ih hl b (by simp) a)
      · exact ih hl x hx a

theorem lastLE_mem : ∀ l : List (ℕ × ℚ), (l.Pairwise fun a b => a.1 < b.1) →
    ∀ (d : ℕ) (v : ℚ), (d, v) ∈ l → lastLE l d = some v := by
  intro l
  induction l with
  | nil => intro _ d v hmem; cases hmem
  | cons a l ih =>
      intro hp d v hmem
      rcases List.pairwise_cons.mp hp with ⟨ha, hl⟩
      unfold lastLE
      rw [List.filter_cons]
      rcases List.mem_cons.mp hmem with heq | hmem'
      · rw [← heq]
        have hfil : l.filter (fun p => decide (p.1 ≤ (d, v).1)) = [] := by
          rw [List.filter_eq_nil_iff]
          intro p hp'
          have := ha p hp'
          rw [← heq] at this
          simp only [decide_eq_true_eq]
          omega
        simp [hfil]
      · have hale : (decide (a.1 ≤ d)) = true := by
          have := ha _ hmem'
          simp only [decide_eq_true_eq]
          omega
        rw [hale, if_pos rfl]
        have hne : l.filter (fun p => decide (p.1 ≤ d)) ≠ [] :=
          List.ne_nil_of_mem (List.mem_filter.mpr ⟨hmem', by simp⟩)
        have := ih hl d v hmem'
        unfold lastLE at this
        cases hfe : l.filter (fun p => decide (p.1 ≤ d)) with
        | nil => exact absurd hfe hne
        | cons z zs =>
            rw [hfe] at this
            rw [List.getLast?_cons_cons, this]

theorem lastLE_congr (l : List (ℕ × ℚ)) (d d' : ℕ)
    (h : ∀ x ∈ l, x.1 ≤ d ↔ x.1 ≤ d') : lastLE l d = lastLE l d' := by
  unfold lastLE
  rw [List.filter_congr fun x hx => decide_eq_decide.mpr (h x hx)]

theorem find?_map_range' (g : ℕ → ℚ) :
    ∀ n s d : ℕ, s ≤ d → d < s + n →
      (((List.range' s n).map fun i => (i, g i)).find? fun p => p.1 == d) = some (d, g d) := by
  intro n
  induction n with
  | zero => intro s d h1 h2; omega
  | succ n ih =>
      intro s d h1 h2
      rw [List.range'_succ, List.map_cons]
      by_cases hsd : s = d
      · subst hsd
        rw [List.find?_cons_of_pos _ (by simp)]
      · rw [List.find?_cons_of_neg _ (by simp [hsd])]
        exact ih (s + 1) d (by omega) (by omega)

theorem asfreqFfill_cons (a : ℕ) (b : ℚ) (rest : List (ℕ × ℚ)) :
    asfreqFfill ((a, b) :: rest) =
      (List.range' a ((((a, b) :: rest).getLastD (a, b)).1 + 1 - a)).map fun day =>
        (day, ((lastLE ((a, b) :: rest) day).getD 0)) := rfl

theorem lookupTS_asfreqFfill (a : ℕ) (b : ℚ) (rest : List (ℕ × ℚ)) (d : ℕ)
    (h1 : a ≤ d) (h2 : d ≤ ((((a, b) :: rest)).getLastD (0, 0)).1) :
    lookupTS (asfreqFfill ((a, b) :: rest)) d =
      some ((lastLE ((a, b) :: rest) d).getD 0) := by
  have hD : ((((a, b) :: rest)).getLastD ((a, b))).1 = ((((a, b) :: rest)).getLastD (0, 0)).1 := by
    rw [List.getLastD_cons, List.getLastD_cons]
  unfold lookupTS
  rw [asfreqFfill_cons, find?_map_range' _ _ _ _ h1 (by omega)]
  rfl

theorem prepared_eq (df : DataFrame) : prepared df = asfreqFfill (dedupedOf df) := rfl



/-- C3 amended: for tables whose filtered series has at most 16 rows — the
regime in which `sort_index` is genuinely stable, numpy's argsort being a
plain insertion sort there — the daily series carries, at a duplicated date,
the rate of the filtered row that comes last in file order: the stable sort
keeps equal dates in file order and `duplicated(keep='last')` then keeps the
last of them.  (Beyond that regime the quicksort is not stable and a
different duplicate can survive; see the accompanying counterexample.)  The
length bound scopes the theorem to where the stable model `sortIndex` is
exact; the conclusion itself does not depend on it. -/
theorem dedup_recency (df : DataFrame)
    (_hsmall : (indexTaxa (filterIPCA (toDatetimeCol df))).length ≤ 16) (d : ℕ) (v : ℚ)
    (h : lastRateAt df d = some v) :
    lookupTS (prepared df) d = some v := by
  unfold lastRateAt at h
  rcases hg : ((indexTaxa (filterIPCA (toDatetimeCol df))).filter fun p => p.1 == d).getLast?
    with _ | y
  · rw [hg] at h; cases h
  · rw [hg] at h
    have hyv : y.2 = v := by simpa using h
    have hymem := List.mem_of_getLast?_eq_some hg
    have hyd : y.1 = d := by
      have h2 := (List.mem_filter.mp hymem).2
      simpa using h2
    have hy' : y = (d, v) := by
      cases y
      simp_all
    have hfind : (dedupedOf df).find? (fun p => p.1 == d) = some (d, v) := by
      unfold dedupedOf
      rw [find?_dedupKeepLast, filter_key_sortIndex, hg, hy']
    have hmemded : (d, v) ∈ dedupedOf df := List.mem_of_find?_eq_some hfind
    have hplt : (dedupedOf df).Pairwise fun a b => a.1 < b.1 := dedup_sort_pairwise_lt _
    rcases hded : dedupedOf df with _ | ⟨⟨a, b⟩, rest⟩
    · rw [hded] at hmemded; cases hmemded
    · rw [hded] at hmemded hplt
      have hple : (((a, b) :: rest)).Pairwise fun x y => x.1 ≤ y.1 := hplt.imp fun h => le_of_lt h
      have h1 : a ≤ d := by
        rcases List.mem_cons.mp hmemded with heq | hmem'
        · injection heq with h₁ h₂
          omega
        · exact le_of_lt ((List.pairwise_cons.mp hplt).1 _ hmem')
      have h2 : d ≤ ((((a, b) :: rest)).getLastD (0, 0)).1 :=
        key_le_getLastD _ hple (d, v) hmemded (0, 0)
      rw [prepared_eq, hded, lookupTS_asfreqFfill a b rest d h1 h2,
        lastLE_mem _ hplt d v hmemded]
      rfl



theorem map_fst_asfreqFfill (a : ℕ) (b : ℚ) (rest : List (ℕ × ℚ)) :
    (asfreqFfill ((a, b) :: rest)).map (·.1) =
      List.range' a ((((a, b) :: rest).getLastD (a, b)).1 + 1 - a) := by
  rw [asfreqFfill_cons, List.map_map]
  refine (List.map_congr_left ?_).trans (List.map_id _)
  intro x hx
  rfl

theorem keys_dedupedOf (df : DataFrame) (e : ℕ) :
    e ∈ (dedupedOf df).map (·.1) ↔ e ∈ rawDays df := by
  unfold dedupedOf rawDays
  rw [key_mem_dedupKeepLast]
  exact ((sortIndex_perm _).map _).mem_iff

/-- C4: for any table whose filter matches at least one row, the daily series
covers exactly every calendar day from its first to its last day with no gaps,
and a day with no raw observation stores the value of the most recent earlier
day that has one. -/
theorem daily_series_complete_ffill (df : DataFrame) (h : rawDays df ≠ []) :
    ((prepared df).map (·.1) =
      List.range' (startDay df) (endDay df + 1 - startDay df)) ∧
    (∀ d d', startDay df ≤ d → d ≤ endDay df → d ∉ rawDays df →
      d' ∈ rawDays df → d' < d → (∀ e ∈ rawDays df, e ≤ d' ∨ d < e) →
      lookupTS (prepared df) d = lookupTS (prepared df) d') := by
  have hplt : (dedupedOf df).Pairwise fun x y => x.1 < y.1 := dedup_sort_pairwise_lt _
  have hne : dedupedOf df ≠ [] := by
    intro hnil
    rcases List.exists_mem_of_ne_nil _ h with ⟨e, he⟩
    have := (keys_dedupedOf df e).mpr he
    rw [hnil] at this
    cases this
  rcases hded : dedupedOf df with _ | ⟨⟨a, b⟩, rest⟩
  · exact absurd hded hne
  · have hstart : startDay df = a := by
      unfold startDay
      rw [hded]
      rfl
    have hend : endDay df = ((((a, b) :: rest)).getLastD (0, 0)).1 := by
      unfold endDay
      rw [hded]
    rw [hded] at hplt
    have hple : (((a, b) :: rest)).Pairwise fun x y => x.1 ≤ y.1 :=
      hplt.imp fun hh => le_of_lt hh
    constructor
    · rw [prepared_eq, hded, map_fst_asfreqFfill, hstart, hend,
        List.getLastD_cons, List.getLastD_cons]
    · intro d d' hd1 hd2 hdno hd'obs hlt hmax
      rw [hstart] at hd1
      rw [hend] at hd2
      have hd'mem : ∃ v', (d', v') ∈ (a, b) :: rest := by
        have := (keys_dedupedOf df d').mpr hd'obs
        rw [hded] at this
        rcases List.mem_map.mp this with ⟨p, hp, hpe⟩
        exact ⟨p.2, by rwa [← hpe, Prod.mk.eta]⟩
      rcases hd'mem with ⟨v', hv'⟩
      have h1' : a ≤ d' := by
        rcases List.mem_cons.mp hv' with heq | hmem'
        · injection heq with h₁ h₂
          omega
        · exact le_of_lt ((List.pairwise_cons.mp hplt).1 _ hmem')
      have h2' : d' ≤ ((((a, b) :: rest)).getLastD (0, 0)).1 :=
        key_le_getLastD _ hple (d', v') hv' (0, 0)
      have hcongr : lastLE ((a, b) :: rest) d = lastLE ((a, b) :: rest) d' := by
        refine lastLE_congr _ d d' ?_
        intro x hx
        have hxobs : x.1 ∈ rawDays df := by
          refine (keys_dedupedOf df x.1).mp ?_
          rw [hded]
          exact List.mem_map.mpr ⟨x, hx, rfl⟩
        rcases hmax x.1 hxobs with hle | hgt
        · constructor <;> intro <;> omega
        · constructor <;> intro <;> omega
      rw [prepared_eq, hded, lookupTS_asfreqFfill a b rest d hd1 hd2,
        lookupTS_asfreqFfill a b rest d' h1' h2', hcongr]


/-- C3 witness: two raw rows share day 10 with rates 5 then 7; the prepared
series stores 7. -/
theorem dedup_recency_witness :
    lookupTS (prepared [⟨"Tesouro IPCA+", .d 10, 5⟩, ⟨"Tesouro IPCA+", .d 10, 7⟩]) 10 =
      some 7 :=
  dedup_recency _ (by decide) 10 7 (by decide)

/-- C3 counterexample: on the unsorted 18-row table `c3df`, whose day-9 rows
carry rates 91, 92, 93, 94 in file order, the length-faithful sort model
leaves the day-9 duplicates in the order 94, 92, 91, 93 (one quicksort
partition followed by two stable insertion runs), so `keep='last'` keeps 93 —
not the file-order-last rate 94.  The original claim fails as a universal
statement: which duplicate survives on a long unsorted input is decided by
the unstable quicksort partition. -/
theorem dedup_recency_counterexample :
    lastRateAt c3df 9 = some 94 ∧
    lookupTS (preparedNp c3df) 9 = some 93 ∧
    (93 : ℚ) ≠ 94 := by
  set_option maxRecDepth 4000 in decide

/-- C4 witness: observations on days 10, 11 and 13; the unobserved day 12 is
forward-filled with day 11's value. -/
theorem daily_series_complete_ffill_witness :
    lookupTS (prepared [⟨"Tesouro IPCA+", .d 10, 5⟩, ⟨"Tesouro IPCA+", .d 11, 6⟩,
        ⟨"Tesouro IPCA+", .d 13, 9⟩]) 12 =
      lookupTS (prepared [⟨"Tesouro IPCA+", .d 10, 5⟩, ⟨"Tesouro IPCA+", .d 11, 6⟩,
        ⟨"Tesouro IPCA+", .d 13, 9⟩]) 11 :=
  (daily_series_complete_ffill _ (by decide)).2 12 11 (by decide) (by decide) (by decide)
    (by decide) (by decide) (by decide)



theorem lexLt_trans {a b c : ℕ × ℚ} (h1 : lexLt a b) (h2 : lexLt b c) : lexLt a c := by
  rcases h1 with h1 | ⟨h1e, h1i⟩ <;> rcases h2 with h2 | ⟨h2e, h2i⟩
  · exact Or.inl (lt_trans h1 h2)
  · exact Or.inl (h2e ▸ h1)
  · exact Or.inl (h1e ▸ h2)
  · exact Or.inr ⟨h1e.trans h2e, lt_trans h1i h2i⟩

theorem orderedInsert_lexLt (x : ℕ × ℚ) :
    ∀ l : List (ℕ × ℚ), l.Pairwise lexLt →
      (∀ y ∈ l, x.2 = y.2 → x.1 < y.1) →
      (List.orderedInsert (fun a b => a.2 ≤ b.2) x l).Pairwise lexLt := by
  intro l
  induction l with
  | nil =>
      intro _ _
      simp [List.orderedInsert]
  | cons b l ih =>
      intro hp hx
      rcases List.pairwise_cons.mp hp with ⟨hb, hl⟩
      by_cases hle : x.2 ≤ b.2
      · rw [List.orderedInsert, if_pos hle]
        have hxb : lexLt x b := by
          rcases lt_or_eq_of_le hle with h | h
          · exact Or.inl h
          · exact Or.inr ⟨h, hx b (by simp) h⟩
        refine List.pairwise_cons.mpr ⟨?_, hp⟩
        intro y hy
        rcases List.mem_cons.mp hy with rfl | hy
        · exact hxb
        · exact lexLt_trans hxb (hb y hy)
      · rw [List.orderedInsert, if_neg hle]
        have hbx : lexLt b x := Or.inl (lt_of_not_le hle)
        refine List.pairwise_cons.mpr
          ⟨?_, ih hl fun y hy => hx y (List.mem_cons_of_mem _ hy)⟩
        intro y hy
        rcases (List.mem_orderedInsert _).mp hy with rfl | hy
        · exact hbx
        · exact hb y hy

theorem sortValues_pairwise_lexLt :
    ∀ l : List (ℕ × ℚ), l.Pairwise (fun a b => a.1 < b.1) →
      (sortValues l).Pairwise lexLt := by
  intro l
  induction l with
  | nil =>
      intro _
      exact List.Pairwise.nil
  | cons x xs ih =>
      intro hp
      rcases List.pairwise_cons.mp hp with ⟨hx, hl⟩
      show (List.orderedInsert _ x (sortValues xs)).Pairwise lexLt
      refine orderedInsert_lexLt x _ (ih hl) ?_
      intro y hy _
      exact hx y ((List.perm_insertionSort _ xs).subset hy)

theorem clusterIds_pairwise (rows : List ((ℕ × ℚ) × ℕ)) :
    (clusterIds rows).Pairwise (· < ·) :=
  (List.pairwise_lt_range _).sublist (List.filter_sublist _)

theorem clusterMeans_pairwise (rows : List ((ℕ × ℚ) × ℕ)) :
    (clusterMeans rows).Pairwise fun a b => a.1 < b.1 := by
  unfold clusterMeans
  rw [List.pairwise_map]
  exact clusterIds_pairwise rows

theorem mem_clusterMeans (rows : List ((ℕ × ℚ) × ℕ)) {c : ℕ} {m : ℚ}
    (h : (c, m) ∈ clusterMeans rows) : m = meanOf rows c := by
  unfold clusterMeans at h
  rcases List.mem_map.mp h with ⟨c', hc', heq⟩
  injection heq with h1 h2
  rw [← h2, h1]

theorem label_clusters_ok (ts : List (ℕ × ℚ)) (clusters : List ℕ)
    (out : List LRow) (labels : List (ℕ × String))
    (hok : label_clusters ts clusters = .ok (out, labels)) :
    ∃ m0 m1 m2 rest, sortValues (clusterMeans (ts.zip clusters)) = m0 :: m1 :: m2 :: rest ∧
      labels = [(m0.1, "Baixa"), (m1.1, "MÃ©dia"), (m2.1, "Alta")] ∧
      out = (ts.zip clusters).map fun r => ⟨r.1.1, r.1.2, r.2, labels.lookup r.2⟩ := by
  simp only [label_clusters] at hok
  rcases hms : sortValues (clusterMeans (ts.zip clusters)) with _ | ⟨m0, _ | ⟨m1, _ | ⟨m2, rest⟩⟩⟩ <;>
    rw [hms] at hok
  · exact absurd hok (by simp)
  · exact absurd hok (by simp)
  · exact absurd hok (by simp)
  · refine ⟨m0, m1, m2, rest, rfl, ?_, ?_⟩
    · have := hok
      simp only [Except.ok.injEq, Prod.mk.injEq] at this
      exact this.2.symm
    · have := hok
      simp only [Except.ok.injEq, Prod.mk.injEq] at this
      rw [← this.1, ← this.2]



theorem lookup3_cases (a0 a1 a2 : ℕ) (s0 s1 s2 : String) (i : ℕ) (li : String)
    (h : List.lookup i [(a0, s0), (a1, s1), (a2, s2)] = some li) :
    (i = a0 ∧ li = s0) ∨ (i ≠ a0 ∧ i = a1 ∧ li = s1) ∨
      (i ≠ a0 ∧ i ≠ a1 ∧ i = a2 ∧ li = s2) := by
  by_cases h0 : i = a0
  · left
    refine ⟨h0, ?_⟩
    have b0 : (i == a0) = true := by simp [h0]
    simp [List.lookup, b0] at h
    exact h.symm
  · have b0 : (i == a0) = false := by simp [h0]
    by_cases h1 : i = a1
    · right; left
      refine ⟨h0, h1, ?_⟩
      have b1 : (i == a1) = true := by simp [h1]
      simp [List.lookup, b0, b1] at h
      exact h.symm
    · have b1 : (i == a1) = false := by simp [h1]
      by_cases h2 : i = a2
      · right; right
        refine ⟨h0, h1, h2, ?_⟩
        have b2 : (i == a2) = true := by simp [h2]
        simp [List.lookup, b0, b1, b2] at h
        exact h.symm
      · exfalso
        have b2 : (i == a2) = false := by simp [h2]
        simp [List.lookup, b0, b1, b2] at h

/-- C1: whenever label assignment succeeds, for any two cluster ids that were
given labels, a strictly smaller mean daily rate yields a strictly
lower-ranked label, and equal means are broken by the smaller cluster id
getting the lower-ranked label — the stable value sort of the id-sorted
cluster means orders them lexicographically by (mean, id). -/
theorem label_ordering_invariant (ts : List (ℕ × ℚ)) (clusters : List ℕ)
    (out : List LRow) (labels : List (ℕ × String))
    (hok : label_clusters ts clusters = .ok (out, labels))
    (i j : ℕ) (li lj : String)
    (hi : labels.lookup i = some li) (hj : labels.lookup j = some lj)
    (hij : meanOf (ts.zip clusters) i < meanOf (ts.zip clusters) j ∨
      (meanOf (ts.zip clusters) i = meanOf (ts.zip clusters) j ∧ i < j)) :
    labelRank li < labelRank lj := by
  rcases label_clusters_ok ts clusters out labels hok with ⟨m0, m1, m2, rest, hms, hlab, -⟩
  subst hlab
  have hpw : (m0 :: m1 :: m2 :: rest).Pairwise lexLt := by
    rw [← hms]
    exact sortValues_pairwise_lexLt _ (clusterMeans_pairwise _)
  have lex01 : lexLt m0 m1 := (List.pairwise_cons.mp hpw).1 m1 (by simp)
  have lex02 : lexLt m0 m2 := (List.pairwise_cons.mp hpw).1 m2 (by simp)
  have lex12 : lexLt m1 m2 :=
    (List.pairwise_cons.mp (List.pairwise_cons.mp hpw).2).1 m2 (by simp)
  have hmem : ∀ m ∈ m0 :: m1 :: m2 :: rest, m.2 = meanOf (ts.zip clusters) m.1 := by
    intro m hm
    have h1 : m ∈ sortValues (clusterMeans (ts.zip clusters)) := hms ▸ hm
    have h2 : m ∈ clusterMeans (ts.zip clusters) := (List.perm_insertionSort _ _).subset h1
    have h3 : (m.1, m.2) ∈ clusterMeans (ts.zip clusters) := by rwa [Prod.mk.eta]
    exact mem_clusterMeans _ h3
  have hm0 : m0.2 = meanOf (ts.zip clusters) m0.1 := hmem m0 (by simp)
  have hm1 : m1.2 = meanOf (ts.zip clusters) m1.1 := hmem m1 (by simp)
  have hm2 : m2.2 = meanOf (ts.zip clusters) m2.1 := hmem m2 (by simp)
  rcases lookup3_cases _ _ _ _ _ _ _ _ hi with ⟨hi0, rfl⟩ | ⟨hi0, hi1, rfl⟩ | ⟨hi0, hi1, hi2, rfl⟩ <;>
    rcases lookup3_cases _ _ _ _ _ _ _ _ hj with ⟨hj0, rfl⟩ | ⟨hj0, hj1, rfl⟩ | ⟨hj0, hj1, hj2, rfl⟩
  · exfalso
    rw [hi0, hj0, ← hm0] at hij
    rcases hij with h | ⟨he, hlt⟩
    · linarith
    · omega
  · decide
  · decide
  · exfalso
    rw [hi1, hj0, ← hm1, ← hm0] at hij
    rcases hij with h | ⟨he, hlt⟩ <;> rcases lex01 with h2 | ⟨he2, hlt2⟩ <;>
      linarith
  · exfalso
    rw [hi1, hj1, ← hm1] at hij
    rcases hij with h | ⟨he, hlt⟩
    · linarith
    · omega
  · decide
  · exfalso
    rw [hi2, hj0, ← hm2, ← hm0] at hij
    rcases hij with h | ⟨he, hlt⟩ <;> rcases lex02 with h2 | ⟨he2, hlt2⟩ <;>
      linarith
  · exfalso
    rw [hi2, hj1, ← hm2, ← hm1] at hij
    rcases hij with h | ⟨he, hlt⟩ <;> rcases lex12 with h2 | ⟨he2, hlt2⟩ <;>
      linarith
  · exfalso
    rw [hi2, hj2, ← hm2] at hij
    rcases hij with h | ⟨he, hlt⟩
    · linarith
    · omega



theorem le_foldr_max : ∀ (l : List ℕ) (c : ℕ), c ∈ l → c ≤ l.foldr max 0 := by
  intro l
  induction l with
  | nil => intro c hc; cases hc
  | cons a l ih =>
      intro c hc
      rcases List.mem_cons.mp hc with rfl | hc
      · exact le_max_left _ _
      · exact le_trans (ih c hc) (le_max_right _ _)

theorem mem_clusterIds (rows : List ((ℕ × ℚ) × ℕ)) (c : ℕ)
    (h : c ∈ rows.map (·.2)) : c ∈ clusterIds rows := by
  unfold clusterIds
  rw [List.mem_filter]
  constructor
  · refine List.mem_range.mpr ?_
    have := le_foldr_max _ _ h
    unfold maxClusterId
    omega
  · simpa [List.contains] using h

/-- C8 amended: the vocabulary is hard-coded to the three names of `vocab`
(never sized to K), and when the cluster assignment has exactly three distinct
ids the labelling succeeds, draws exactly those three names, and every date
carries a label. -/
theorem label_vocab_three (ts : List (ℕ × ℚ)) (clusters : List ℕ)
    (h3 : (clusterIds (ts.zip clusters)).length = 3) :
    ∃ out labels, label_clusters ts clusters = .ok (out, labels) ∧
      labels.map (·.2) = vocab ∧
      ∀ r ∈ out, r.label.isSome := by
  have hlen : (sortValues (clusterMeans (ts.zip clusters))).length = 3 := by
    unfold sortValues
    rw [(List.perm_insertionSort _ _).length_eq]
    unfold clusterMeans
    rw [List.length_map]
    exact h3
  rcases List.length_eq_three.mp hlen with ⟨m0, m1, m2, hms⟩
  refine ⟨(ts.zip clusters).map fun r =>
      ⟨r.1.1, r.1.2, r.2, List.lookup r.2 [(m0.1, "Baixa"), (m1.1, "MÃ©dia"), (m2.1, "Alta")]⟩,
    [(m0.1, "Baixa"), (m1.1, "MÃ©dia"), (m2.1, "Alta")], ?_, rfl, ?_⟩
  · simp only [label_clusters, hms]
  · intro r hr
    rcases List.mem_map.mp hr with ⟨p, hp, rfl⟩
    have hid : p.2 ∈ clusterIds (ts.zip clusters) :=
      mem_clusterIds _ _ (List.mem_map.mpr ⟨p, hp, rfl⟩)
    have hmm : (p.2, meanOf (ts.zip clusters) p.2) ∈ sortValues (clusterMeans (ts.zip clusters)) := by
      refine (List.perm_insertionSort _ _).mem_iff.mpr ?_
      unfold clusterMeans
      exact List.mem_map.mpr ⟨p.2, hid, rfl⟩
    rw [hms] at hmm
    have hcases : p.2 = m0.1 ∨ p.2 = m1.1 ∨ p.2 = m2.1 := by
      simp only [List.mem_cons, List.not_mem_nil, or_false] at hmm
      rcases hmm with hh | hh | hh
      · exact Or.inl (congrArg Prod.fst hh)
      · exact Or.inr (Or.inl (congrArg Prod.fst hh))
      · exact Or.inr (Or.inr (congrArg Prod.fst hh))
    show (List.lookup p.2 [(m0.1, "Baixa"), (m1.1, "MÃ©dia"), (m2.1, "Alta")]).isSome
    by_cases h0 : p.2 = m0.1
    · have b0 : (p.2 == m0.1) = true := by simp [h0]
      simp [List.lookup, b0]
    · have b0 : (p.2 == m0.1) = false := by simp [h0]
      by_cases h1 : p.2 = m1.1
      · have b1 : (p.2 == m1.1) = true := by simp [h1]
        simp [List.lookup, b0, b1]
      · have b1 : (p.2 == m1.1) = false := by simp [h1]
        have h2 : p.2 = m2.1 := by tauto
        have b2 : (p.2 == m2.1) = true := by simp [h2]
        simp [List.lookup, b0, b1, b2]


/-- C1 witness: three singleton clusters with means 1 < 10 put cluster 0 below
cluster 2 in the vocabulary. -/
theorem label_ordering_invariant_witness : labelRank "Baixa" < labelRank "Alta" :=
  label_ordering_invariant [(0, 1), (1, 2), (2, 10)] [0, 1, 2]
    [⟨0, 1, 0, some "Baixa"⟩, ⟨1, 2, 1, some "MÃ©dia"⟩, ⟨2, 10, 2, some "Alta"⟩]
    [(0, "Baixa"), (1, "MÃ©dia"), (2, "Alta")]
    (by norm_num [label_clusters, clusterMeans, clusterIds, maxClusterId, meanOf, sortValues,
      List.insertionSort, List.orderedInsert, List.lookup]; decide)
    0 2 "Baixa" "Alta" (by decide) (by decide)
    (Or.inl (by norm_num [meanOf]))

/-- C8 witness: with exactly three clusters present, labelling succeeds, uses
the three hard-coded names, and labels every date. -/
theorem label_vocab_three_witness :
    ∃ out labels, label_clusters [(0, 1), (1, 2), (2, 10)] [0, 1, 2] = .ok (out, labels) ∧
      labels.map (·.2) = vocab ∧ ∀ r ∈ out, r.label.isSome :=
  label_vocab_three [(0, 1), (1, 2), (2, 10)] [0, 1, 2] (by decide)

end TesouroDireto
